import Mathlib

/-!
Verification of the Bayesian-neural-network example (src/examples/bayesian_neural_net.py).

The file shallowly embeds the inner functions of make_nn_funs — unpack_layers,
predictions and logprob — over rationals.  Arrays are modelled as nested lists:
a 2-D numpy array of shape (r, c) becomes a list of r rows, each a list of c
rationals, and a 3-D array becomes a list of such matrices.  numpy reshape is
row-major, so reshaping the first m*n columns of a row into an (m, n) block is
chunking that prefix into m rows of n entries.  numpy broadcasting appears in
three places in the source and is modelled exactly on those code paths:
the m axis of einsum (a size-1 axis stretches to the other operand's size),
the bias of shape (S, 1, n) added to a (S, N, n) pre-activation (the single
row is added to every row), and targets of shape (N, 1) subtracted from
predictions of shape (S, N, O) (entry (n, 0) is subtracted across the O
columns).  The caller-supplied nonlinearity is an explicit parameter f.
-/

namespace BNN

abbrev Vec := List ℚ
abbrev Mat := List Vec
abbrev Arr3 := List Mat

/-- shapes = list(zip(layer_sizes[:-1], layer_sizes[1:])).  zip truncates to the
shorter argument, so zipping with the tail drops the last element implicitly. -/
def shapes (layer_sizes : List Nat) : List (Nat × Nat) :=
  layer_sizes.zip layer_sizes.tail

/-- Total flat parameter count of a raw shape list: sum of (m+1)*n. -/
def weightCount (sh : List (Nat × Nat)) : Nat :=
  (sh.map (fun p => (p.1 + 1) * p.2)).sum

/-- num_weights = sum((m+1)*n for m, n in shapes). -/
def num_weights (layer_sizes : List Nat) : Nat :=
  weightCount (shapes layer_sizes)

/-- Row-major reshape of the first m*n entries of a flat row into m rows of n. -/
def chunks (m n : Nat) (l : List ℚ) : Mat :=
  (List.range m).map (fun i => (l.drop (i * n)).take n)

/-- unpack_layers: for each (m, n) in the shape list, yield
weights[:, :m*n] reshaped to (S, m, n) and weights[:, m*n:m*n+n] reshaped to
(S, 1, n), then advance the column cursor by (m+1)*n.  Per weight-sample row r
the two blocks are the first m*n entries (chunked row-major into m rows of n)
and the next n entries (a single row of n). -/
def unpack_layers : List (Nat × Nat) → Mat → List (Arr3 × Arr3)
  | [], _ => []
  | (m, n) :: rest, weights =>
      (weights.map (fun r => chunks m n (r.take (m * n))),
       weights.map (fun r => chunks 1 n ((r.drop (m * n)).take n)))
      :: unpack_layers rest (weights.map (fun r => r.drop ((m + 1) * n)))

/-- numpy broadcast of two axis lengths: a size-1 axis stretches to the other
(including to 0); equal sizes stay; other mismatches are a numpy error, never
reached under the shape hypotheses of the theorems below. -/
def bcastLen (a b : Nat) : Nat :=
  if a = 1 then b else if b = 1 then a else max a b

/-- Sample i of a 3-D operand under m-axis broadcasting: a length-1 operand
always contributes its only sample. -/
def bget (A : Arr3) (i : Nat) : Mat :=
  if A.length = 1 then A.getD 0 [] else A.getD i []

/-- One output row of a matrix product: entry o is the contraction
sum over d of row[d] * B[d][o].  O is the trailing dimension of B, passed
explicitly because lists do not carry their shape. -/
def matVecRow (O : Nat) (row : Vec) (B : Mat) : Vec :=
  (List.range O).map (fun o => ((row.zip B).map (fun p => p.1 * p.2.getD o 0)).sum)

/-- Per-sample matrix product of an (N, D) matrix with a (D, O) matrix. -/
def matMulM (O : Nat) (A B : Mat) : Mat :=
  A.map (fun r => matVecRow O r B)

/-- np.einsum('mnd,mdo->mno', A, W): per-sample batched matrix product, with
numpy broadcasting on the shared m axis. -/
def einsum_mnd_mdo (O : Nat) (A W : Arr3) : Arr3 :=
  (List.range (bcastLen A.length W.length)).map
    (fun i => matMulM O (bget A i) (bget W i))

/-- outputs + b where b has shape (S, 1, n): the single bias row of each sample
is added (elementwise) to every row of that sample's output. -/
def addBias (outputs b : Arr3) : Arr3 :=
  (outputs.zip b).map (fun p => p.1.map (fun row => row.zipWith (· + ·) (p.2.getD 0 [])))

/-- Elementwise application of the nonlinearity to a 3-D array. -/
def mapArr3 (f : ℚ → ℚ) (A : Arr3) : Arr3 :=
  A.map (fun M => M.map (fun r => r.map f))

/-- The loop body of predictions: for each (W, b) pair (tagged with its output
width n), outputs = einsum('mnd,mdo->mno', inputs, W) + b and the next inputs
are nonlinearity(outputs); after the loop the last raw outputs are returned.
The third argument carries the current value of the loop variable outputs. -/
def forwardLoop (f : ℚ → ℚ) : List ((Arr3 × Arr3) × Nat) → Arr3 → Arr3 → Arr3
  | [], _, outputs => outputs
  | ((W, b), n) :: rest, inputs, _ =>
      forwardLoop f rest
        (mapArr3 f (addBias (einsum_mnd_mdo n inputs W) b))
        (addBias (einsum_mnd_mdo n inputs W) b)

/-- The unpacked (W, b) pairs of a weight batch, each tagged with its layer's
output width n (the trailing dimension of W, needed to drive the einsum). -/
def zippedLayers (layer_sizes : List Nat) (weights : Mat) : List ((Arr3 × Arr3) × Nat) :=
  (unpack_layers (shapes layer_sizes) weights).zip ((shapes layer_sizes).map Prod.snd)

/-- predictions(weights, inputs): expand inputs to shape (1, N, D) and run the
layer loop.  The initial [] stands for the not-yet-assigned loop variable
outputs (unbound in the source if the shape list were empty). -/
def predictions (layer_sizes : List Nat) (f : ℚ → ℚ) (weights inputs : Mat) : Arr3 :=
  forwardLoop f (zippedLayers layer_sizes weights) [inputs] []

/-- log_prior = -L2_reg * np.sum(weights**2, axis=1). -/
def log_prior (L2_reg : ℚ) (weights : Mat) : Vec :=
  weights.map (fun r => -(L2_reg * (r.map (fun x => x ^ 2)).sum))

/-- preds - targets with targets of shape (N, 1) broadcast over the O output
columns: entry (s, n, o) is preds[s][n][o] - targets[n][0]. -/
def subB (preds : Arr3) (targets : Mat) : Arr3 :=
  preds.map (fun M => (M.zip targets).map (fun p => p.1.map (fun x => x - p.2.getD 0 0)))

/-- Elementwise square of a 3-D array. -/
def sq3 (A : Arr3) : Arr3 :=
  A.map (fun M => M.map (fun r => r.map (fun x => x ^ 2)))

/-- np.sum(M, axis=1) for one (N, O) sample: the vector of its O column sums. -/
def sumAxis1 (O : Nat) (M : Mat) : Vec :=
  (List.range O).map (fun o => (M.map (fun r => r.getD o 0)).sum)

/-- The trailing dimension a numpy array of nested lists would report:
the length of the first row of the first sample. -/
def trailingDim (A : Arr3) : Nat :=
  ((A.getD 0 []).getD 0 []).length

/-- log_lik = -np.sum((preds - targets)**2, axis=1)[:, 0] / noise_variance. -/
def log_lik (layer_sizes : List Nat) (f : ℚ → ℚ) (noise_variance : ℚ)
    (weights inputs targets : Mat) : Vec :=
  let sqerr := sq3 (subB (predictions layer_sizes f weights inputs) targets)
  (sqerr.map (sumAxis1 (trailingDim sqerr))).map (fun v => -(v.getD 0 0 / noise_variance))

/-- logprob(weights, inputs, targets) = log_prior + log_lik. -/
def logprob (layer_sizes : List Nat) (f : ℚ → ℚ) (L2_reg noise_variance : ℚ)
    (weights inputs targets : Mat) : Vec :=
  (log_prior L2_reg weights).zipWith (· + ·)
    (log_lik layer_sizes f noise_variance weights inputs targets)

/-- make_nn_funs(layer_sizes, L2_reg, noise_variance, nonlinearity): computes
num_weights and returns it with the two closures.  The body performs no
validation of L2_reg or noise_variance. -/
def make_nn_funs (layer_sizes : List Nat) (f : ℚ → ℚ) (L2_reg noise_variance : ℚ) :
    Nat × (Mat → Mat → Arr3) × (Mat → Mat → Mat → Vec) :=
  (num_weights layer_sizes, predictions layer_sizes f,
   logprob layer_sizes f L2_reg noise_variance)

/-- Construction wrapped in Except so that raising at construction time is
statable: the source body of make_nn_funs contains no raise and no check, so
its translation always returns ok. -/
def make_nn_funsE (layer_sizes : List Nat) (f : ℚ → ℚ) (L2_reg noise_variance : ℚ) :
    Except String (Nat × (Mat → Mat → Arr3) × (Mat → Mat → Mat → Vec)) :=
  Except.ok (make_nn_funs layer_sizes f L2_reg noise_variance)

/-- Whether an Except value is a normal return. -/
def isOkE {ε α : Type} : Except ε α → Bool
  | Except.ok _ => true
  | Except.error _ => false

/-- A matrix has shape (r, c): r rows, each of length c. -/
def HasShapeM (M : Mat) (r c : Nat) : Prop :=
  M.length = r ∧ ∀ row ∈ M, row.length = c

instance (M : Mat) (r c : Nat) : Decidable (HasShapeM M r c) :=
  inferInstanceAs (Decidable (M.length = r ∧ ∀ row ∈ M, row.length = c))

/-- A 3-D array has shape (s, r, c). -/
def HasShape3 (A : Arr3) (s r c : Nat) : Prop :=
  A.length = s ∧ ∀ M ∈ A, HasShapeM M r c

instance (A : Arr3) (s r c : Nat) : Decidable (HasShape3 A s r c) :=
  inferInstanceAs (Decidable (A.length = s ∧ ∀ M ∈ A, HasShapeM M r c))

/-- Entry (i, j) of a matrix (0 outside the array). -/
def ent2 (M : Mat) (i j : Nat) : ℚ :=
  (M.getD i []).getD j 0

/-- Entry (s, i, j) of a 3-D array (0 outside the array). -/
def ent3 (A : Arr3) (s i j : Nat) : ℚ :=
  ((A.getD s []).getD i []).getD j 0

/-- Apply a permutation of Fin N to the rows of a list (default d off-range). -/
def permuteList {α : Type} {N : Nat} (σ : Equiv.Perm (Fin N)) (l : List α) (d : α) : List α :=
  List.ofFn (fun i => l.getD (σ i).val d)

/-- Re-packing: flatten each (W, b) pair per sample and concatenate all blocks
in schedule order, giving back a flat weight row per sample. -/
def rowsOf (p : Arr3 × Arr3) : Mat :=
  (p.1.zip p.2).map (fun q => q.1.flatten ++ q.2.flatten)

def repack : List (Arr3 × Arr3) → Mat
  | [] => []
  | [p] => rowsOf p
  | p :: q :: ps => (rowsOf p).zipWith (· ++ ·) (repack (q :: ps))

/-- The per-sample view of the tagged layer list: sample s's weight matrix,
bias row and output width for each layer. -/
def sampleLayers (Z : List ((Arr3 × Arr3) × Nat)) (s : Nat) : List ((Mat × Vec) × Nat) :=
  Z.map (fun q => ((q.1.1.getD s [], (q.1.2.getD s []).getD 0 []), q.2))

/-- Single-row reference forward pass: affine layer then nonlinearity on every
layer except the last, whose raw affine output is returned. -/
def netFwd (f : ℚ → ℚ) : List ((Mat × Vec) × Nat) → Vec → Vec
  | [], x => x
  | [((W, b), n)], x => (matVecRow n x W).zipWith (· + ·) b
  | ((W, b), n) :: q :: rest, x =>
      netFwd f (q :: rest) (((matVecRow n x W).zipWith (· + ·) b).map f)

/-- Batched reference forward pass that applies the nonlinearity to the
pre-activation of every layer pair except the last and returns the raw
pre-activation of the final pair. -/
def applyExceptLast (f : ℚ → ℚ) : List ((Arr3 × Arr3) × Nat) → Arr3 → Arr3
  | [], A => A
  | [((W, b), n)], A => addBias (einsum_mnd_mdo n A W) b
  | ((W, b), n) :: q :: rest, A =>
      applyExceptLast f (q :: rest) (mapArr3 f (addBias (einsum_mnd_mdo n A W) b))

/-! ### Basic list plumbing -/

theorem getD_map_lt {α β : Type} (f : α → β) (l : List α) (d : β) (e : α) {n : Nat}
    (h : n < l.length) : (l.map f).getD n d = f (l.getD n e) := by
  rw [List.getD_eq_getElem _ _ (by simpa using h), List.getD_eq_getElem _ _ h,
    List.getElem_map]

theorem sum_map_getD {α : Type} (l : List α) (g : α → ℚ) (d : α) :
    (l.map g).sum = ∑ j ∈ Finset.range l.length, g (l.getD j d) := by
  induction l with
  | nil => simp
  | cons a t ih =>
      simp only [List.map_cons, List.sum_cons, List.length_cons,
        Finset.sum_range_succ', List.getD_cons_succ, List.getD_cons_zero, ih]
      exact add_comm _ _

theorem shapeM_len {M : Mat} {r c : Nat} (h : HasShapeM M r c) : M.length = r := h.1

theorem shapeM_getD {M : Mat} {r c : Nat} (h : HasShapeM M r c) {n : Nat} (hn : n < r) :
    (M.getD n []).length = c := by
  have hn' : n < M.length := by rw [h.1]; exact hn
  rw [List.getD_eq_getElem _ _ hn']
  exact h.2 _ (List.getElem_mem hn')

theorem shape3_getD {A : Arr3} {s r c : Nat} (h : HasShape3 A s r c) {i : Nat} (hi : i < s) :
    HasShapeM (A.getD i []) r c := by
  have hi' : i < A.length := by rw [h.1]; exact hi
  rw [List.getD_eq_getElem _ _ hi']
  exact h.2 _ (List.getElem_mem hi')

theorem bget_eq_getD {W : Arr3} {S s : Nat} (hW : W.length = S) (hs : s < S) :
    bget W s = W.getD s [] := by
  unfold bget
  by_cases h1 : W.length = 1
  · have hS : S = 1 := by rw [← hW, h1]
    have : s = 0 := by omega
    simp [h1, this]
  · simp [h1]

theorem bcastLen_self (a : Nat) : bcastLen a a = a := by
  unfold bcastLen
  by_cases h : a = 1 <;> simp [h]

theorem getD_zero_of_all_zero {v : Vec} (h : ∀ x ∈ v, x = 0) (i : Nat) :
    v.getD i 0 = 0 := by
  by_cases hi : i < v.length
  · rw [List.getD_eq_getElem _ _ hi]
    exact h _ (List.getElem_mem hi)
  · rw [List.getD_eq_default]
    omega

theorem zipWith_replicate_zero :
    ∀ (v : Vec) (k : Nat), (∀ y ∈ v, y = 0) →
      (List.replicate k (0 : ℚ)).zipWith (· + ·) v = List.replicate (min k v.length) 0
  | [], k, _ => by simp
  | y :: t, 0, _ => by simp
  | y :: t, k + 1, h => by
      have hy : y = 0 := h y (by simp)
      have ht := zipWith_replicate_zero t k (fun z hz => h z (by simp [hz]))
      simp [List.replicate_succ, ht, hy, Nat.succ_min_succ, List.replicate]

theorem zipWith_map_same {α β γ δ : Type} (h : β → γ → δ) (f : α → β) (g : α → γ) :
    ∀ l : List α, List.zipWith h (l.map f) (l.map g) = l.map (fun x => h (f x) (g x))
  | [] => rfl
  | a :: t => by simp [zipWith_map_same h f g t]

theorem chunks_flatten (n : Nat) :
    ∀ (m : Nat) (l : List ℚ), l.length = m * n → (chunks m n l).flatten = l
  | 0, l, hl => by
      have : l = [] := by
        cases l with
        | nil => rfl
        | cons a t => simp at hl
      simp [chunks, this]
  | m + 1, l, hl => by
      have hrec : (chunks m n (l.drop n)).flatten = l.drop n := by
        apply chunks_flatten n m
        rw [List.length_drop, hl, Nat.succ_mul]
        omega
      have hmap : (List.range m).map ((fun i => (l.drop (i * n)).take n) ∘ Nat.succ)
          = chunks m n (l.drop n) := by
        apply List.map_congr_left
        intro i _
        simp only [Function.comp, chunks]
        rw [Nat.succ_mul, Nat.add_comm, ← List.drop_drop]
      calc (chunks (m + 1) n l).flatten
      _ = l.take n ++ (chunks m n (l.drop n)).flatten := by
        simp only [chunks, List.range_succ_eq_map, List.map_cons, List.map_map,
          List.flatten_cons, Nat.zero_mul, List.drop_zero, hmap]
      _ = l := by rw [hrec, List.take_append_drop]

theorem chunks_shape {m n : Nat} {l : List ℚ} (hl : l.length = m * n) :
    HasShapeM (chunks m n l) m n := by
  constructor
  · simp [chunks]
  · intro row hrow
    simp only [chunks, List.mem_map, List.mem_range] at hrow
    obtain ⟨i, hi, rfl⟩ := hrow
    rw [List.length_take, List.length_drop, hl]
    have h1 : 1 ≤ m - i := by omega
    have : n ≤ (m - i) * n := by
      calc n = 1 * n := (one_mul n).symm
      _ ≤ (m - i) * n := Nat.mul_le_mul_right n h1
    rw [← Nat.sub_mul]
    exact min_eq_left this

theorem getLastD_mem {α : Type} : ∀ (l : List α) (d : α), l ≠ [] → l.getLastD d ∈ l
  | [], _, h => absurd rfl h
  | [a], d, _ => by simp
  | a :: b :: t, d, _ => by
      rw [List.getLastD_cons]
      exact List.mem_cons_of_mem a (getLastD_mem (b :: t) a (by simp))

theorem forall₂_getD {α β : Type} {R : α → β → Prop} {l₁ : List α} {l₂ : List β}
    (h : List.Forall₂ R l₁ l₂) (k : Nat) (hk : k < l₂.length) (d₁ : α) (d₂ : β) :
    R (l₁.getD k d₁) (l₂.getD k d₂) := by
  obtain ⟨hlen, hget⟩ := List.forall₂_iff_get.1 h
  have hk₁ : k < l₁.length := by omega
  rw [List.getD_eq_getElem _ _ hk₁, List.getD_eq_getElem _ _ hk]
  exact hget k hk₁ hk

/-! ### unpack_layers: lengths, shapes, zero weights, re-packing -/

theorem unpack_layers_length : ∀ (sh : List (Nat × Nat)) (w : Mat),
    (unpack_layers sh w).length = sh.length
  | [], _ => rfl
  | (m, n) :: rest, w => by
      simp [unpack_layers, unpack_layers_length rest]

theorem unpack_layers_rowlen : ∀ (sh : List (Nat × Nat)) (w : Mat) (p : Arr3 × Arr3),
    p ∈ unpack_layers sh w → p.1.length = w.length ∧ p.2.length = w.length
  | [], _, p, hp => absurd hp (by simp [unpack_layers])
  | (m, n) :: rest, w, p, hp => by
      simp only [unpack_layers, List.mem_cons] at hp
      rcases hp with rfl | hp
      · simp
      · have := unpack_layers_rowlen rest _ p hp
        simpa using this

theorem unpack_layers_shapes : ∀ (sh : List (Nat × Nat)) (w : Mat) (S : Nat),
    HasShapeM w S (weightCount sh) →
    List.Forall₂ (fun (p : Arr3 × Arr3) (mn : Nat × Nat) =>
      HasShape3 p.1 S mn.1 mn.2 ∧ HasShape3 p.2 S 1 mn.2)
      (unpack_layers sh w) sh
  | [], w, S, _ => by simp [unpack_layers]
  | (m, n) :: rest, w, S, hw => by
      have hmul : (m + 1) * n = m * n + n := Nat.succ_mul m n
      have hrow : ∀ r ∈ w, r.length = (m + 1) * n + weightCount rest := by
        intro r hr
        have := hw.2 r hr
        simpa [weightCount] using this
      simp only [unpack_layers]
      refine List.Forall₂.cons ⟨⟨by simp [hw.1], ?_⟩, ⟨by simp [hw.1], ?_⟩⟩ ?_
      · intro M hM
        simp only [List.mem_map] at hM
        obtain ⟨r, hr, rfl⟩ := hM
        apply chunks_shape
        rw [List.length_take, hrow r hr]
        omega
      · intro M hM
        simp only [List.mem_map] at hM
        obtain ⟨r, hr, rfl⟩ := hM
        apply chunks_shape
        rw [List.length_take, List.length_drop, hrow r hr, one_mul]
        omega
      · apply unpack_layers_shapes rest
        refine ⟨by simp [hw.1], ?_⟩
        intro r hr
        simp only [List.mem_map] at hr
        obtain ⟨r₀, hr₀, rfl⟩ := hr
        rw [List.length_drop, hrow r₀ hr₀]
        omega

theorem unpack_layers_zero : ∀ (sh : List (Nat × Nat)) (w : Mat),
    (∀ r ∈ w, ∀ x ∈ r, x = 0) → ∀ p ∈ unpack_layers sh w,
      (∀ M ∈ p.1, ∀ r ∈ M, ∀ x ∈ r, x = 0) ∧ (∀ M ∈ p.2, ∀ r ∈ M, ∀ x ∈ r, x = 0)
  | [], _, _, p, hp => absurd hp (by simp [unpack_layers])
  | (m, n) :: rest, w, hw, p, hp => by
      have hchunk : ∀ (m' n' : Nat) (g : Vec → Vec) (hg : ∀ r, ∀ x ∈ g r, x ∈ r),
          ∀ M ∈ w.map (fun r => chunks m' n' (g r)), ∀ r ∈ M, ∀ x ∈ r, x = 0 := by
        intro m' n' g hg M hM r hr x hx
        simp only [List.mem_map] at hM
        obtain ⟨row, hrow, rfl⟩ := hM
        simp only [chunks, List.mem_map, List.mem_range] at hr
        obtain ⟨i, _, rfl⟩ := hr
        exact hw row hrow x (hg row x (List.drop_subset _ _ (List.take_subset _ _ hx)))
      simp only [unpack_layers, List.mem_cons] at hp
      rcases hp with rfl | hp
      · constructor
        · exact hchunk m n (fun r => r.take (m * n)) (fun r x hx => List.take_subset _ _ hx)
        · exact hchunk 1 n (fun r => (r.drop (m * n)).take n)
            (fun r x hx => List.drop_subset _ _ (List.take_subset _ _ hx))
      · refine unpack_layers_zero rest _ ?_ p hp
        intro r hr x hx
        simp only [List.mem_map] at hr
        obtain ⟨r₀, hr₀, rfl⟩ := hr
        exact hw r₀ hr₀ x (List.drop_subset _ _ hx)

theorem rowsOf_unpack_head (m n : Nat) (w : Mat)
    (hlen : ∀ r ∈ w, (m + 1) * n ≤ r.length) :
    rowsOf (w.map (fun r => chunks m n (r.take (m * n))),
            w.map (fun r => chunks 1 n ((r.drop (m * n)).take n)))
      = w.map (fun r => r.take ((m + 1) * n)) := by
  have hmul : (m + 1) * n = m * n + n := Nat.succ_mul m n
  unfold rowsOf
  rw [List.zip_map', List.map_map]
  apply List.map_congr_left
  intro r hr
  have h1 : (chunks m n (r.take (m * n))).flatten = r.take (m * n) := by
    apply chunks_flatten
    rw [List.length_take]
    have := hlen r hr
    omega
  have h2 : (chunks 1 n ((r.drop (m * n)).take n)).flatten = (r.drop (m * n)).take n := by
    apply chunks_flatten
    rw [List.length_take, List.length_drop, one_mul]
    have := hlen r hr
    omega
  simp only [Function.comp, h1, h2]
  rw [hmul, List.take_add]

theorem repack_unpack : ∀ (sh : List (Nat × Nat)) (w : Mat), sh ≠ [] →
    (∀ r ∈ w, r.length = weightCount sh) → repack (unpack_layers sh w) = w
  | [], _, hne, _ => absurd rfl hne
  | [(m, n)], w, _, hw => by
      have hw' : ∀ r ∈ w, r.length = (m + 1) * n := by
        intro r hr
        simpa [weightCount] using hw r hr
      simp only [unpack_layers, repack]
      rw [rowsOf_unpack_head m n w (fun r hr => le_of_eq (hw' r hr).symm)]
      have : ∀ r ∈ w, r.take ((m + 1) * n) = r := by
        intro r hr
        rw [← hw' r hr, List.take_length]
      rw [List.map_congr_left this, List.map_id']
  | (m, n) :: (m2, n2) :: t, w, _, hw => by
      have hw' : ∀ r ∈ w, r.length = (m + 1) * n + weightCount ((m2, n2) :: t) := by
        intro r hr
        simpa [weightCount] using hw r hr
      have hrec : repack (unpack_layers ((m2, n2) :: t) (w.map (fun r => r.drop ((m + 1) * n))))
          = w.map (fun r => r.drop ((m + 1) * n)) := by
        apply repack_unpack ((m2, n2) :: t) _ (by simp)
        intro r hr
        simp only [List.mem_map] at hr
        obtain ⟨r₀, hr₀, rfl⟩ := hr
        rw [List.length_drop, hw' r₀ hr₀]
        omega
      simp only [unpack_layers, repack] at hrec ⊢
      rw [hrec, rowsOf_unpack_head m n w
        (fun r hr => by rw [hw' r hr]; omega)]
      rw [zipWith_map_same]
      have : ∀ r ∈ w, r.take ((m + 1) * n) ++ r.drop ((m + 1) * n) = r := by
        intro r _
        exact List.take_append_drop _ r
      rw [List.map_congr_left this, List.map_id']

/-! ### Shapes of the forward pass -/

theorem matVecRow_length (O : Nat) (r : Vec) (B : Mat) : (matVecRow O r B).length = O := by
  simp [matVecRow]

theorem matMulM_shape {A : Mat} {N D : Nat} (O : Nat) (hA : HasShapeM A N D) (B : Mat) :
    HasShapeM (matMulM O A B) N O := by
  constructor
  · simp [matMulM, hA.1]
  · intro row hrow
    simp only [matMulM, List.mem_map] at hrow
    obtain ⟨r, _, rfl⟩ := hrow
    exact matVecRow_length O r B

theorem einsum_shape {A W : Arr3} {sa S N D O : Nat}
    (hA : HasShape3 A sa N D) (hW : HasShape3 W S D O) (hsa : sa = 1 ∨ sa = S) :
    HasShape3 (einsum_mnd_mdo O A W) S N O := by
  have hlen : bcastLen A.length W.length = S := by
    rcases hsa with h | h
    · rw [hA.1, hW.1, h]
      simp [bcastLen]
    · rw [hA.1, hW.1, h]
      exact bcastLen_self S
  constructor
  · simp [einsum_mnd_mdo, hlen]
  · intro M hM
    simp only [einsum_mnd_mdo, hlen, List.mem_map, List.mem_range] at hM
    obtain ⟨i, hi, rfl⟩ := hM
    have hbA : HasShapeM (bget A i) N D := by
      unfold bget
      by_cases h1 : A.length = 1
      · have hsa1 : sa = 1 := by rw [← hA.1, h1]
        simp only [h1, if_pos rfl]
        exact shape3_getD hA (by omega)
      · have hsaS : sa = S := by
          rcases hsa with h | h
          · exact absurd (hA.1.trans h) h1
          · exact h
        simp only [h1, if_neg h1]
        exact shape3_getD hA (by omega)
    have hbW : HasShapeM (bget W i) D O := by
      unfold bget
      by_cases h1 : W.length = 1
      · simp only [h1, if_pos rfl]
        have hS1 : S = 1 := by rw [← hW.1, h1]
        exact shape3_getD hW (by omega)
      · simp only [h1, if_neg h1]
        exact shape3_getD hW hi
    exact matMulM_shape O hbA (bget W i)

theorem addBias_shape {X b : Arr3} {S N O : Nat}
    (hX : HasShape3 X S N O) (hb : HasShape3 b S 1 O) :
    HasShape3 (addBias X b) S N O := by
  constructor
  · simp [addBias, hX.1, hb.1]
  · intro M hM
    simp only [addBias, List.mem_map] at hM
    obtain ⟨⟨p1, p2⟩, hp, rfl⟩ := hM
    have hmem := List.of_mem_zip hp
    have h1 : HasShapeM p1 N O := hX.2 _ hmem.1
    have h2 : HasShapeM p2 1 O := hb.2 _ hmem.2
    constructor
    · simp [h1.1]
    · intro row hrow
      simp only [List.mem_map] at hrow
      obtain ⟨r, hr, rfl⟩ := hrow
      rw [List.length_zipWith, h1.2 r hr, shapeM_getD h2 (by omega : (0 : Nat) < 1)]
      exact min_self O

theorem mapArr3_shape (f : ℚ → ℚ) {A : Arr3} {S N O : Nat} (hA : HasShape3 A S N O) :
    HasShape3 (mapArr3 f A) S N O := by
  constructor
  · simp [mapArr3, hA.1]
  · intro M hM
    simp only [mapArr3, List.mem_map] at hM
    obtain ⟨M₀, hM₀, rfl⟩ := hM
    have h := hA.2 M₀ hM₀
    constructor
    · simp [h.1]
    · intro row hrow
      simp only [List.mem_map] at hrow
      obtain ⟨r, hr, rfl⟩ := hrow
      simp [h.2 r hr]

/-- shapes of a schedule with at least two entries starts with the first pair. -/
theorem shapes_cons (a b : Nat) (t : List Nat) :
    shapes (a :: b :: t) = (a, b) :: shapes (b :: t) := rfl

theorem shapes_chain' : ∀ ls : List Nat,
    List.Chain' (fun p q : Nat × Nat => p.2 = q.1) (shapes ls)
  | [] => by simp [shapes]
  | [_] => by simp [shapes]
  | [_, _] => by simp [shapes]
  | a :: b :: c :: t => by
      rw [shapes_cons, shapes_cons]
      refine List.chain'_cons.2 ⟨rfl, ?_⟩
      rw [← shapes_cons]
      exact shapes_chain' (b :: c :: t)

theorem shapes_getLast_snd : ∀ (a b : Nat) (t : List Nat),
    ((shapes (a :: b :: t)).getLastD (0, 0)).2 = (a :: b :: t).getLastD 0
  | _, _, [] => by simp [shapes]
  | a, b, c :: t => by
      rw [shapes_cons, List.getLastD_cons, shapes_cons, List.getLastD_cons,
        List.getLastD_cons, List.getLastD_cons]
      have h := shapes_getLast_snd b c t
      rw [shapes_cons, List.getLastD_cons, List.getLastD_cons] at h
      exact h

theorem unpack_layers_cons (m n : Nat) (rest : List (Nat × Nat)) (w : Mat) :
    unpack_layers ((m, n) :: rest) w =
      (w.map (fun r => chunks m n (r.take (m * n))),
       w.map (fun r => chunks 1 n ((r.drop (m * n)).take n)))
      :: unpack_layers rest (w.map (fun r => r.drop ((m + 1) * n))) := rfl

theorem forwardLoop_cons (f : ℚ → ℚ) (W b : Arr3) (n : Nat)
    (rest : List ((Arr3 × Arr3) × Nat)) (A out0 : Arr3) :
    forwardLoop f (((W, b), n) :: rest) A out0 =
      forwardLoop f rest
        (mapArr3 f (addBias (einsum_mnd_mdo n A W) b))
        (addBias (einsum_mnd_mdo n A W) b) := rfl

theorem forwardLoop_shape (f : ℚ → ℚ) (sh : List (Nat × Nat)) :
    ∀ (w : Mat) (S : Nat) (A : Arr3) (sa N : Nat) (out0 : Arr3),
    List.Chain' (fun p q : Nat × Nat => p.2 = q.1) sh →
    HasShapeM w S (weightCount sh) →
    HasShape3 A sa N (sh.headD (0, 0)).1 → (sa = 1 ∨ sa = S) → sh ≠ [] →
    HasShape3 (forwardLoop f ((unpack_layers sh w).zip (sh.map Prod.snd)) A out0)
      S N (sh.getLastD (0, 0)).2 := by
  induction sh with
  | nil =>
      intro _ _ _ _ _ _ _ _ _ _ hne
      exact absurd rfl hne
  | cons hd tl ih =>
      obtain ⟨m, n⟩ := hd
      intro w S A sa N out0 hch hw hA hsa _
      have hforall := unpack_layers_shapes ((m, n) :: tl) w S hw
      rw [unpack_layers_cons] at hforall
      obtain ⟨⟨hW0, hb0⟩, -⟩ := List.forall₂_cons.1 hforall
      have hout := addBias_shape (einsum_shape hA hW0 hsa) hb0
      rw [unpack_layers_cons, List.map_cons, List.zip_cons_cons, forwardLoop_cons]
      cases tl with
      | nil =>
          simpa [forwardLoop, unpack_layers] using hout
      | cons hd2 tl2 =>
          obtain ⟨m2, n2⟩ := hd2
          have hn : n = m2 := (List.chain'_cons.1 hch).1
          have hch2 := (List.chain'_cons.1 hch).2
          have hw2 : HasShapeM (w.map (fun r => r.drop ((m + 1) * n))) S
              (weightCount ((m2, n2) :: tl2)) := by
            have hmul : (m + 1) * n = m * n + n := Nat.succ_mul m n
            refine ⟨by simp [hw.1], ?_⟩
            intro r hr
            simp only [List.mem_map] at hr
            obtain ⟨r₀, hr₀, rfl⟩ := hr
            have := hw.2 r₀ hr₀
            simp only [weightCount, List.map_cons, List.sum_cons] at this
            rw [List.length_drop, this]
            simp [weightCount]
          revert hout hw2
          generalize addBias
            (einsum_mnd_mdo n A (w.map (fun r => chunks m n (r.take (m * n)))))
            (w.map (fun r => chunks 1 n ((r.drop (m * n)).take n))) = outs
          generalize w.map (fun r => r.drop ((m + 1) * n)) = w2
          intro hout hw2
          rw [List.getLastD_cons, List.getLastD_cons]
          have hA2 : HasShape3 (mapArr3 f outs) S N
              (((m2, n2) :: tl2).headD (0, 0)).1 := by
            have := mapArr3_shape f hout
            simpa [hn] using this
          have h := ih w2 S (mapArr3 f outs) S N outs
            hch2 hw2 hA2 (Or.inr rfl) (List.cons_ne_nil _ _)
          rw [List.getLastD_cons] at h
          exact h

theorem predictions_shape {ls : List Nat} (f : ℚ → ℚ) {w inputs : Mat} {S N : Nat}
    (hls : 2 ≤ ls.length) (hw : HasShapeM w S (num_weights ls))
    (hin : HasShapeM inputs N (ls.headD 0)) :
    HasShape3 (predictions ls f w inputs) S N (ls.getLastD 0) := by
  match ls, hls with
  | a :: b :: t, _ =>
      have hA : HasShape3 [inputs] 1 N ((shapes (a :: b :: t)).headD (0, 0)).1 := by
        refine ⟨rfl, ?_⟩
        intro M hM
        simp only [List.mem_singleton] at hM
        subst hM
        simpa [shapes_cons] using hin
      have h := forwardLoop_shape f (shapes (a :: b :: t)) w S [inputs] 1 N []
        (shapes_chain' _) hw hA (Or.inl rfl) (by simp [shapes_cons])
      rw [shapes_getLast_snd] at h
      exact h

/-! ### Per-sample pointwise characterization of the forward pass -/

theorem forwardLoop_nil (f : ℚ → ℚ) (A out0 : Arr3) :
    forwardLoop f [] A out0 = out0 := rfl

theorem netFwd_single (f : ℚ → ℚ) (W : Mat) (b : Vec) (n : Nat) (x : Vec) :
    netFwd f [((W, b), n)] x = (matVecRow n x W).zipWith (· + ·) b := rfl

theorem netFwd_cons₂ (f : ℚ → ℚ) (W : Mat) (b : Vec) (n : Nat)
    (q : (Mat × Vec) × Nat) (rest : List ((Mat × Vec) × Nat)) (x : Vec) :
    netFwd f (((W, b), n) :: q :: rest) x =
      netFwd f (q :: rest) (((matVecRow n x W).zipWith (· + ·) b).map f) := rfl

theorem einsum_length {A W : Arr3} {S : Nat} (hW : W.length = S)
    (hA : A.length = 1 ∨ A.length = S) (n : Nat) :
    (einsum_mnd_mdo n A W).length = S := by
  rcases hA with h | h
  · simp [einsum_mnd_mdo, h, hW, bcastLen]
  · simp [einsum_mnd_mdo, h, hW, bcastLen_self]

theorem outs_spec {W b A : Arr3} {S : Nat} {rows : Mat} {g : Nat → Vec → Vec} (n : Nat)
    (hW : W.length = S) (hb : b.length = S)
    (hA : A.length = 1 ∨ A.length = S)
    (hbget : ∀ s, s < S → bget A s = rows.map (g s)) :
    (addBias (einsum_mnd_mdo n A W) b).length = S ∧
    ∀ s, s < S → (addBias (einsum_mnd_mdo n A W) b).getD s [] =
      rows.map (fun r =>
        (matVecRow n (g s r) (W.getD s [])).zipWith (· + ·) ((b.getD s []).getD 0 [])) := by
  have hX : (einsum_mnd_mdo n A W).length = S := einsum_length hW hA n
  have hlen : (addBias (einsum_mnd_mdo n A W) b).length = S := by
    simp [addBias, hX, hb]
  refine ⟨hlen, ?_⟩
  intro s hs
  have hs' : s < (addBias (einsum_mnd_mdo n A W) b).length := by omega
  have hsb : s < b.length := by omega
  have hsX : s < (einsum_mnd_mdo n A W).length := by omega
  have hXs : (einsum_mnd_mdo n A W)[s] =
      matMulM n (rows.map (g s)) (W.getD s []) := by
    simp only [einsum_mnd_mdo, List.getElem_map, List.getElem_range]
    rw [bget_eq_getD hW hs, hbget s hs]
  rw [List.getD_eq_getElem _ _ hs']
  simp only [addBias, List.getElem_map, List.getElem_zip]
  rw [hXs, List.getD_eq_getElem b [] hsb]
  simp only [matMulM, List.map_map]
  rfl

theorem forwardLoop_sample (f : ℚ → ℚ) :
    ∀ (Z : List ((Arr3 × Arr3) × Nat)) (A out0 : Arr3) (S : Nat) (rows : Mat)
      (g : Nat → Vec → Vec),
    Z ≠ [] →
    (∀ q ∈ Z, q.1.1.length = S ∧ q.1.2.length = S) →
    (A.length = 1 ∨ A.length = S) →
    (∀ s, s < S → bget A s = rows.map (g s)) →
    ∀ s, s < S → (forwardLoop f Z A out0).getD s [] =
      rows.map (fun r => netFwd f (sampleLayers Z s) (g s r)) := by
  intro Z
  induction Z with
  | nil =>
      intro _ _ _ _ _ hne
      exact absurd rfl hne
  | cons q0 Z' ih =>
      obtain ⟨⟨W, b⟩, n⟩ := q0
      intro A out0 S rows g _ hZ hA hbget s hs
      have hq : W.length = S ∧ b.length = S := hZ _ (List.mem_cons_self _ _)
      have hspec := outs_spec n hq.1 hq.2 hA hbget
      rw [forwardLoop_cons]
      cases Z' with
      | nil =>
          rw [forwardLoop_nil, hspec.2 s hs]
          simp only [sampleLayers, List.map_cons, List.map_nil, netFwd_single]
      | cons q2 Z2 =>
          have hZ' : ∀ q ∈ q2 :: Z2, q.1.1.length = S ∧ q.1.2.length = S :=
            fun q hq2 => hZ q (List.mem_cons_of_mem _ hq2)
          have hA' : (mapArr3 f (addBias (einsum_mnd_mdo n A W) b)).length = 1 ∨
              (mapArr3 f (addBias (einsum_mnd_mdo n A W) b)).length = S := by
            right
            simp [mapArr3, hspec.1]
          have hbget' : ∀ t, t < S →
              bget (mapArr3 f (addBias (einsum_mnd_mdo n A W) b)) t =
                rows.map (fun r =>
                  (((matVecRow n (g t r) (W.getD t [])).zipWith (· + ·)
                    ((b.getD t []).getD 0 [])).map f)) := by
            intro t ht
            have hlen : (mapArr3 f (addBias (einsum_mnd_mdo n A W) b)).length = S := by
              simp [mapArr3, hspec.1]
            rw [bget_eq_getD hlen ht]
            unfold mapArr3
            rw [getD_map_lt _ _ _ [] (by rw [hspec.1]; exact ht), hspec.2 t ht,
              List.map_map]
            rfl
          have h := ih (mapArr3 f (addBias (einsum_mnd_mdo n A W) b))
            (addBias (einsum_mnd_mdo n A W) b) S rows
            (fun t r => (((matVecRow n (g t r) (W.getD t [])).zipWith (· + ·)
              ((b.getD t []).getD 0 [])).map f))
            (List.cons_ne_nil _ _) hZ' hA' hbget' s hs
          rw [h]
          simp only [sampleLayers, List.map_cons, netFwd_cons₂]

theorem shapes_length (ls : List Nat) : (shapes ls).length = ls.length - 1 := by
  simp [shapes, List.length_zip]

theorem zippedLayers_ne_nil {ls : List Nat} (hls : 2 ≤ ls.length) (w : Mat) :
    zippedLayers ls w ≠ [] := by
  apply List.ne_nil_of_length_pos
  simp [zippedLayers, List.length_zip, unpack_layers_length, shapes_length]
  omega

theorem predictions_sample (ls : List Nat) (f : ℚ → ℚ) (w inputs : Mat) (S : Nat)
    (hls : 2 ≤ ls.length) (hwlen : w.length = S) :
    ∀ s, s < S → (predictions ls f w inputs).getD s [] =
      inputs.map (fun r => netFwd f (sampleLayers (zippedLayers ls w) s) r) := by
  intro s hs
  have h := forwardLoop_sample f (zippedLayers ls w) [inputs] [] S inputs
    (fun _ r => r) (zippedLayers_ne_nil hls w)
    (fun q hq => by
      have hmem := (List.of_mem_zip hq).1
      have := unpack_layers_rowlen (shapes ls) w q.1 hmem
      omega)
    (Or.inl rfl)
    (fun t ht => by
      show inputs = inputs.map (fun r => r)
      rw [List.map_id'])
    s hs
  exact h

/-! ### The likelihood pipeline, entrywise -/

theorem getD_zip_lt {α β : Type} (l1 : List α) (l2 : List β) (d1 : α) (d2 : β) {k : Nat}
    (h1 : k < l1.length) (h2 : k < l2.length) :
    (l1.zip l2).getD k (d1, d2) = (l1.getD k d1, l2.getD k d2) := by
  have hz : k < (l1.zip l2).length := by
    simp only [List.length_zip]
    omega
  rw [List.getD_eq_getElem _ _ hz, List.getElem_zip, List.getD_eq_getElem _ _ h1,
    List.getD_eq_getElem _ _ h2]

theorem row_entry (row : Vec) (t : ℚ) (hrow : 0 < row.length) :
    ((row.map (fun x => x - t)).map (fun x => x ^ 2)).getD 0 0 = (row.getD 0 0 - t) ^ 2 := by
  rw [getD_map_lt _ _ _ 0 (by simpa using hrow), getD_map_lt _ _ _ 0 hrow]

theorem subB_getD {preds : Arr3} (targets : Mat) {S : Nat} (hlen : preds.length = S)
    {t : Nat} (ht : t < S) :
    (subB preds targets).getD t [] =
      ((preds.getD t []).zip targets).map (fun p => p.1.map (fun x => x - p.2.getD 0 0)) := by
  unfold subB
  exact getD_map_lt _ _ _ [] (by omega)

theorem sq3_subB_getD {preds : Arr3} (targets : Mat) {S : Nat} (hlen : preds.length = S)
    {t : Nat} (ht : t < S) :
    (sq3 (subB preds targets)).getD t [] =
      (((preds.getD t []).zip targets).map (fun p => p.1.map (fun x => x - p.2.getD 0 0))).map
        (fun r => r.map (fun x => x ^ 2)) := by
  unfold sq3
  rw [getD_map_lt _ _ _ [] (by simp only [subB, List.length_map]; omega),
    subB_getD targets hlen ht]

theorem sumAxis1_col0 {preds : Arr3} {targets : Mat} {S N O : Nat}
    (hpred : HasShape3 preds S N O) (hO : 0 < O) (htlen : targets.length = N)
    {s : Nat} (hs : s < S) :
    (sumAxis1 (trailingDim (sq3 (subB preds targets)))
        ((sq3 (subB preds targets)).getD s [])).getD 0 0 =
      ∑ k ∈ Finset.range N, (ent3 preds s k 0 - ent2 targets k 0) ^ 2 := by
  have hSpos : 0 < S := by omega
  have hpredS : HasShapeM (preds.getD s []) N O := shape3_getD hpred hs
  have hMs := sq3_subB_getD targets hpred.1 hs
  rcases Nat.eq_zero_or_pos N with hN | hN
  · have hnil : preds.getD s [] = [] := by
      have := hpredS.1
      rw [hN] at this
      exact List.length_eq_zero.1 this
    rw [hMs, hnil]
    simp [sumAxis1, hN]
  · have hT : trailingDim (sq3 (subB preds targets)) = O := by
      unfold trailingDim
      rw [sq3_subB_getD targets hpred.1 hSpos]
      have hp0 : HasShapeM (preds.getD 0 []) N O := shape3_getD hpred hSpos
      have hz0 : (0 : Nat) < ((preds.getD 0 []).zip targets).length := by
        simp only [List.length_zip, hp0.1, htlen]
        omega
      rw [getD_map_lt _ _ [] [] (by simpa using hz0),
        getD_map_lt _ _ [] ([], []) hz0,
        getD_zip_lt _ _ [] [] (by rw [hp0.1]; exact hN) (by rw [htlen]; exact hN)]
      simp only [List.length_map]
      exact shapeM_getD hp0 hN
    rw [hT, hMs]
    have hMlen : ((((preds.getD s []).zip targets).map
        (fun p => p.1.map (fun x => x - p.2.getD 0 0))).map
        (fun r => r.map (fun x => x ^ 2))).length = N := by
      simp only [List.length_map, List.length_zip, hpredS.1, htlen]
      omega
    unfold sumAxis1
    rw [getD_map_lt _ _ _ 0 (by simpa using hO),
      List.getD_eq_getElem _ _ (by simpa using hO : 0 < (List.range O).length),
      List.getElem_range, sum_map_getD _ _ [], hMlen]
    apply Finset.sum_congr rfl
    intro k hk
    have hkN : k < N := Finset.mem_range.1 hk
    have hzk : k < ((preds.getD s []).zip targets).length := by
      simp only [List.length_zip, hpredS.1, htlen]
      omega
    rw [getD_map_lt _ _ [] [] (by simpa using hzk),
      getD_map_lt _ _ [] ([], []) hzk,
      getD_zip_lt _ _ [] [] (by rw [hpredS.1]; exact hkN) (by rw [htlen]; exact hkN)]
    have hrow : 0 < ((preds.getD s []).getD k []).length := by
      rw [shapeM_getD hpredS hkN]
      omega
    rw [row_entry _ _ hrow]
    rfl

/-! ### Entrywise form of log_prior, log_lik and logprob -/

theorem log_prior_length (lam : ℚ) (w : Mat) : (log_prior lam w).length = w.length := by
  simp [log_prior]

theorem log_prior_entry {w : Mat} {S Wt : Nat} (lam : ℚ) (hw : HasShapeM w S Wt)
    {s : Nat} (hs : s < S) :
    (log_prior lam w).getD s 0 = -(lam * ∑ j ∈ Finset.range Wt, ent2 w s j ^ 2) := by
  unfold log_prior
  rw [getD_map_lt _ _ 0 [] (by rw [hw.1]; exact hs), sum_map_getD _ _ 0, shapeM_getD hw hs]
  rfl

theorem log_lik_length (ls : List Nat) (f : ℚ → ℚ) (sig2 : ℚ) (w inputs targets : Mat) :
    (log_lik ls f sig2 w inputs targets).length = (predictions ls f w inputs).length := by
  simp [log_lik, sq3, subB]

theorem log_lik_entry {ls : List Nat} {f : ℚ → ℚ} (sig2 : ℚ) {w inputs targets : Mat}
    {S N O : Nat} (hpred : HasShape3 (predictions ls f w inputs) S N O) (hO : 0 < O)
    (htlen : targets.length = N) {s : Nat} (hs : s < S) :
    (log_lik ls f sig2 w inputs targets).getD s 0 =
      -((∑ k ∈ Finset.range N,
          (ent3 (predictions ls f w inputs) s k 0 - ent2 targets k 0) ^ 2) / sig2) := by
  have hsq_len : (sq3 (subB (predictions ls f w inputs) targets)).length = S := by
    simp [sq3, subB, hpred.1]
  simp only [log_lik]
  rw [getD_map_lt _ _ 0 [] (by simp only [List.length_map]; omega),
    getD_map_lt _ _ [] [] (by omega),
    sumAxis1_col0 hpred hO htlen hs]

theorem logprob_eq_formula (ls : List Nat) (f : ℚ → ℚ) (lam sig2 : ℚ)
    (w inputs targets : Mat) (S N : Nat)
    (hls : 2 ≤ ls.length) (hO : 0 < ls.getLastD 0)
    (hw : HasShapeM w S (num_weights ls))
    (hin : HasShapeM inputs N (ls.headD 0))
    (ht : HasShapeM targets N 1) :
    logprob ls f lam sig2 w inputs targets =
      (List.range S).map (fun s =>
        -(lam * ∑ j ∈ Finset.range (num_weights ls), ent2 w s j ^ 2) +
        -((∑ k ∈ Finset.range N,
            (ent3 (predictions ls f w inputs) s k 0 - ent2 targets k 0) ^ 2) / sig2)) := by
  have hpred := predictions_shape f hls hw hin
  have hlpl : (log_prior lam w).length = S := by
    rw [log_prior_length, hw.1]
  have hlll : (log_lik ls f sig2 w inputs targets).length = S := by
    rw [log_lik_length, hpred.1]
  unfold logprob
  apply List.ext_getElem
  · simp [List.length_zipWith, hlpl, hlll]
  · intro s h1 h2
    have hsS : s < S := by simpa using h2
    rw [List.getElem_zipWith]
    simp only [List.getElem_map, List.getElem_range]
    rw [← List.getD_eq_getElem (log_prior lam w) 0 (by rw [hlpl]; exact hsS),
      ← List.getD_eq_getElem (log_lik ls f sig2 w inputs targets) 0 (by rw [hlll]; exact hsS),
      log_prior_entry lam hw hsS, log_lik_entry sig2 hpred hO ht.1 hsS]

/-! ### Equivalence with the apply-except-last forward pass -/

theorem forwardLoop_eq_applyExceptLast (f : ℚ → ℚ) :
    ∀ (Z : List ((Arr3 × Arr3) × Nat)) (A out0 : Arr3), Z ≠ [] →
    forwardLoop f Z A out0 = applyExceptLast f Z A := by
  intro Z
  induction Z with
  | nil =>
      intro A out0 hne
      exact absurd rfl hne
  | cons q Z' ih =>
      obtain ⟨⟨W, b⟩, n⟩ := q
      intro A out0 _
      cases Z' with
      | nil => rfl
      | cons q2 Z2 =>
          rw [forwardLoop_cons, ih _ _ (List.cons_ne_nil _ _)]
          rfl

theorem shapes_ne_nil {ls : List Nat} (hls : 2 ≤ ls.length) : shapes ls ≠ [] := by
  apply List.ne_nil_of_length_pos
  rw [shapes_length]
  omega

/-! ### Claim theorems -/

/-- C1: for a WeightBatch of shape (S, W), an InputBatch of shape (N, D) with D
the first layer width, and a TargetBatch of shape (N, 1), logprob returns the
length-S vector whose entry s is log_prior(s) + log_lik(s), where
log_prior(s) = -L2_reg * Σ_w weights[s,w]² and
log_lik(s) = -Σ_n (preds(s,n,0) - targets(n,0))² / noise_variance,
preds being the forward-pass Predictions. -/
theorem logprob_formula (ls : List Nat) (f : ℚ → ℚ) (lam sig2 : ℚ)
    (w inputs targets : Mat) (S N : Nat)
    (hls : 2 ≤ ls.length) (hpos : ∀ x ∈ ls, 0 < x)
    (hw : HasShapeM w S (num_weights ls))
    (hin : HasShapeM inputs N (ls.headD 0))
    (ht : HasShapeM targets N 1) :
    logprob ls f lam sig2 w inputs targets =
      (List.range S).map (fun s =>
        -(lam * ∑ j ∈ Finset.range (num_weights ls), ent2 w s j ^ 2) +
        -((∑ k ∈ Finset.range N,
            (ent3 (predictions ls f w inputs) s k 0 - ent2 targets k 0) ^ 2) / sig2)) := by
  refine logprob_eq_formula ls f lam sig2 w inputs targets S N hls ?_ hw hin ht
  refine hpos _ (getLastD_mem ls 0 ?_)
  intro h
  rw [h] at hls
  simp at hls

theorem logprob_formula_witness :
    logprob [1, 1] (fun x => x) 1 2 [[1, 2]] [[3]] [[4]] =
      (List.range 1).map (fun s =>
        -(1 * ∑ j ∈ Finset.range (num_weights [1, 1]), ent2 [[1, 2]] s j ^ 2) +
        -((∑ k ∈ Finset.range 1,
            (ent3 (predictions [1, 1] (fun x => x) [[1, 2]] [[3]]) s k 0 -
              ent2 [[4]] k 0) ^ 2) / 2)) :=
  logprob_formula [1, 1] (fun x => x) 1 2 [[1, 2]] [[3]] [[4]] 1 1 (by decide) (by decide)
    (by decide) (by decide) (by decide)

/-- C2: with a schedule of length at least 2, the forward pass equals the
reference computation that applies the nonlinearity to the pre-activation of
every layer pair except the last and returns the raw pre-activation (batched
matrix product plus broadcast bias) of the final pair; the returned Predictions
array has shape (S, N, O) with O the last layer width. -/
theorem predictions_no_final_nonlinearity (ls : List Nat) (f : ℚ → ℚ)
    (w inputs : Mat) (S N : Nat)
    (hls : 2 ≤ ls.length) (hw : HasShapeM w S (num_weights ls))
    (hin : HasShapeM inputs N (ls.headD 0)) :
    predictions ls f w inputs = applyExceptLast f (zippedLayers ls w) [inputs] ∧
    HasShape3 (predictions ls f w inputs) S N (ls.getLastD 0) := by
  constructor
  · unfold predictions
    exact forwardLoop_eq_applyExceptLast f _ _ _ (zippedLayers_ne_nil hls w)
  · exact predictions_shape f hls hw hin

theorem predictions_no_final_nonlinearity_witness :
    predictions [1, 2, 1] (fun x => x) [[1, 2, 3, 4, 5, 6, 7]] [[1]] =
      applyExceptLast (fun x => x) (zippedLayers [1, 2, 1] [[1, 2, 3, 4, 5, 6, 7]]) [[[1]]] ∧
    HasShape3 (predictions [1, 2, 1] (fun x => x) [[1, 2, 3, 4, 5, 6, 7]] [[1]]) 1 1
      ([1, 2, 1].getLastD 0) :=
  predictions_no_final_nonlinearity [1, 2, 1] (fun x => x) [[1, 2, 3, 4, 5, 6, 7]] [[1]] 1 1
    (by decide) (by decide) (by decide)

/-- C3: for a WeightBatch of matching width, unpacking yields exactly one
(WeightMatrix, BiasVector) pair per adjacent layer pair (m, n) in schedule
order with shapes (S, m, n) and (S, 1, n); the per-sample element counts
m*n + 1*n of all pairs sum to W, and W equals the num_weights value
Σ (m+1)*n computed at construction. -/
theorem unpack_layers_spec (ls : List Nat) (w : Mat) (S : Nat)
    (hw : HasShapeM w S (num_weights ls)) :
    (unpack_layers (shapes ls) w).length = (shapes ls).length ∧
    (∀ k, k < (shapes ls).length →
      HasShape3 ((unpack_layers (shapes ls) w).getD k ([], [])).1 S
        ((shapes ls).getD k (0, 0)).1 ((shapes ls).getD k (0, 0)).2 ∧
      HasShape3 ((unpack_layers (shapes ls) w).getD k ([], [])).2 S 1
        ((shapes ls).getD k (0, 0)).2) ∧
    ((shapes ls).map (fun p => p.1 * p.2 + 1 * p.2)).sum = num_weights ls := by
  have hforall := unpack_layers_shapes (shapes ls) w S hw
  refine ⟨unpack_layers_length _ _, ?_, ?_⟩
  · intro k hk
    exact forall₂_getD hforall k hk ([], []) (0, 0)
  · unfold num_weights weightCount
    apply congrArg List.sum
    apply List.map_congr_left
    intro p _
    rw [Nat.one_mul, Nat.succ_mul p.1 p.2]

theorem unpack_layers_spec_witness :
    (unpack_layers (shapes [1, 2]) [[1, 2, 3, 4]]).length = (shapes [1, 2]).length ∧
    (∀ k, k < (shapes [1, 2]).length →
      HasShape3 ((unpack_layers (shapes [1, 2]) [[1, 2, 3, 4]]).getD k ([], [])).1 1
        ((shapes [1, 2]).getD k (0, 0)).1 ((shapes [1, 2]).getD k (0, 0)).2 ∧
      HasShape3 ((unpack_layers (shapes [1, 2]) [[1, 2, 3, 4]]).getD k ([], [])).2 1 1
        ((shapes [1, 2]).getD k (0, 0)).2) ∧
    ((shapes [1, 2]).map (fun p => p.1 * p.2 + 1 * p.2)).sum = num_weights [1, 2] :=
  unpack_layers_spec [1, 2] [[1, 2, 3, 4]] 1 (by decide)

/-- C4: for a WeightBatch of matching width, unpacking into (WeightMatrix,
BiasVector) pairs and re-packing them (flattening each pair per sample and
concatenating the blocks in schedule order) reproduces the WeightBatch. -/
theorem unpack_repack (ls : List Nat) (w : Mat) (S : Nat)
    (hls : 2 ≤ ls.length) (hw : HasShapeM w S (num_weights ls)) :
    repack (unpack_layers (shapes ls) w) = w := by
  refine repack_unpack (shapes ls) w (shapes_ne_nil hls) ?_
  intro r hr
  exact hw.2 r hr

theorem unpack_repack_witness :
    repack (unpack_layers (shapes [1, 2, 1]) [[1, 2, 3, 4, 5, 6, 7]]) =
      [[1, 2, 3, 4, 5, 6, 7]] :=
  unpack_repack [1, 2, 1] [[1, 2, 3, 4, 5, 6, 7]] 1 (by decide) (by decide)

/-- C5 counterexample: constructing with a negative L2_reg and a negative
(hence non-positive) noise_variance raises nothing — make_nn_funs returns
normally. -/
theorem make_nn_funs_no_error_cex :
    isOkE (make_nn_funsE [1, 20, 20, 1] (fun x => x) (-(1 / 10)) (-(1 / 100))) = true := rfl

/-- C5 (amended): construction performs no validation: even with a non-positive
noise_variance or a negative L2_reg, make_nn_funs returns normally (num_weights
and the two closures); no ConfigurationError exists in the code. -/
theorem make_nn_funs_no_validation (ls : List Nat) (f : ℚ → ℚ) (lam sig2 : ℚ)
    (_h : sig2 ≤ 0 ∨ lam < 0) : isOkE (make_nn_funsE ls f lam sig2) = true := rfl

theorem make_nn_funs_no_validation_witness :
    isOkE (make_nn_funsE [1, 20, 20, 1] (fun x => x) (1 / 10) (-(1 / 100))) = true :=
  make_nn_funs_no_validation [1, 20, 20, 1] (fun x => x) (1 / 10) (-(1 / 100))
    (Or.inl (by norm_num))

/-- C7: for a weight row with at least one nonzero entry, the log-prior entry
-λ·Σ_w weights[s,w]² is strictly decreasing in λ: λ1 < λ2 makes the entry
computed with λ2 strictly smaller. -/
theorem log_prior_strict_anti (lam1 lam2 : ℚ) (w : Mat) (s : Nat)
    (hs : s < w.length) (hnz : ∃ x ∈ w.getD s [], x ≠ 0) (hlt : lam1 < lam2) :
    (log_prior lam2 w).getD s 0 < (log_prior lam1 w).getD s 0 := by
  unfold log_prior
  rw [getD_map_lt _ _ 0 [] hs, getD_map_lt _ _ 0 [] hs]
  obtain ⟨x, hx, hxne⟩ := hnz
  have hterm : (0 : ℚ) < x ^ 2 := by
    rw [pow_two]
    exact mul_self_pos.2 hxne
  have hle : x ^ 2 ≤ ((w.getD s []).map (fun y => y ^ 2)).sum := by
    refine List.single_le_sum ?_ _ (List.mem_map.2 ⟨x, hx, rfl⟩)
    intro y hy
    simp only [List.mem_map] at hy
    obtain ⟨z, _, rfl⟩ := hy
    positivity
  have hsum : 0 < ((w.getD s []).map (fun y => y ^ 2)).sum := lt_of_lt_of_le hterm hle
  have := mul_lt_mul_of_pos_right hlt hsum
  linarith

theorem log_prior_strict_anti_witness :
    (log_prior 1 [[1]]).getD 0 0 < (log_prior 0 [[1]]).getD 0 0 :=
  log_prior_strict_anti 0 1 [[1]] 0 (by decide) (by decide) (by decide)

/-- C8: with a single weight sample and an empty dataset (N = 0), the
log-likelihood term is exactly 0 and logprob returns exactly the log-prior
vector. -/
theorem logprob_empty_data (ls : List Nat) (f : ℚ → ℚ) (lam sig2 : ℚ) (w : Mat)
    (hls : 2 ≤ ls.length) (hw : HasShapeM w 1 (num_weights ls)) :
    log_lik ls f sig2 w [] [] = [0] ∧ logprob ls f lam sig2 w [] [] = log_prior lam w := by
  have hin : HasShapeM ([] : Mat) 0 (ls.headD 0) := ⟨rfl, by simp⟩
  have hpred := predictions_shape f hls hw hin
  have hpeq : predictions ls f w [] = [[]] := by
    obtain ⟨M, hM⟩ := List.length_eq_one.1 hpred.1
    have hM0 : M.length = 0 := by
      have := hpred.2 M (by rw [hM]; simp)
      exact this.1
    rw [hM, List.length_eq_zero.1 hM0]
  have hll : log_lik ls f sig2 w [] [] = [0] := by
    simp [log_lik, hpeq, subB, sq3, trailingDim, sumAxis1]
  refine ⟨hll, ?_⟩
  unfold logprob
  rw [hll]
  obtain ⟨r, hr⟩ := List.length_eq_one.1 hw.1
  subst hr
  simp [log_prior]

theorem logprob_empty_data_witness :
    log_lik [1, 2, 1] (fun x => x) 2 [[1, 2, 3, 4, 5, 6, 7]] [] [] = [0] ∧
    logprob [1, 2, 1] (fun x => x) 1 2 [[1, 2, 3, 4, 5, 6, 7]] [] [] =
      log_prior 1 [[1, 2, 3, 4, 5, 6, 7]] :=
  logprob_empty_data [1, 2, 1] (fun x => x) 1 2 [[1, 2, 3, 4, 5, 6, 7]]
    (by decide) (by decide)

/-! ### Zero weights -/

theorem netFwd_zero (f : ℚ → ℚ) (hf : f 0 = 0) :
    ∀ L : List ((Mat × Vec) × Nat), L ≠ [] →
    (∀ q ∈ L, (∀ r ∈ q.1.1, ∀ x ∈ r, x = 0) ∧ (∀ x ∈ q.1.2, x = 0)) →
    ∃ K, ∀ x, netFwd f L x = List.replicate K (0 : ℚ) := by
  intro L
  induction L with
  | nil =>
      intro hne
      exact absurd rfl hne
  | cons q L' ih =>
      obtain ⟨⟨W, b⟩, n⟩ := q
      intro _ hz
      have hq := hz _ (List.mem_cons_self _ _)
      have haffine : ∀ x : Vec,
          (matVecRow n x W).zipWith (· + ·) b = List.replicate (min n b.length) 0 := by
        intro x
        have hmv : matVecRow n x W = List.replicate n 0 := by
          unfold matVecRow
          have hzero : ∀ o ∈ List.range n,
              ((x.zip W).map (fun p => p.1 * p.2.getD o 0)).sum = (fun _ => (0 : ℚ)) o := by
            intro o _
            apply List.sum_eq_zero
            intro y hy
            simp only [List.mem_map] at hy
            obtain ⟨p, hp, rfl⟩ := hy
            rw [getD_zero_of_all_zero (hq.1 p.2 (List.of_mem_zip hp).2) o, mul_zero]
          rw [List.map_congr_left hzero, List.map_const', List.length_range]
        rw [hmv, zipWith_replicate_zero b n hq.2]
      cases L' with
      | nil =>
          exact ⟨min n b.length, fun x => by rw [netFwd_single, haffine x]⟩
      | cons q2 L2 =>
          obtain ⟨K, hK⟩ :=
            ih (List.cons_ne_nil _ _) (fun p hp => hz p (List.mem_cons_of_mem _ hp))
          refine ⟨K, fun x => ?_⟩
          rw [netFwd_cons₂, haffine x, List.map_replicate, hf]
          exact hK _

theorem getD_rows_zero {A : Arr3} (hA : ∀ M ∈ A, ∀ r ∈ M, ∀ x ∈ r, x = 0) (i : Nat) :
    ∀ r ∈ A.getD i [], ∀ x ∈ r, x = 0 := by
  intro r hr x hx
  by_cases hi : i < A.length
  · rw [List.getD_eq_getElem _ _ hi] at hr
    exact hA _ (List.getElem_mem hi) r hr x hx
  · rw [List.getD_eq_default _ _ (by omega)] at hr
    simp at hr

theorem getD_row_zero {M : Mat} (hM : ∀ r ∈ M, ∀ x ∈ r, x = 0) (i : Nat) :
    ∀ x ∈ M.getD i [], x = 0 := by
  intro x hx
  by_cases hi : i < M.length
  · rw [List.getD_eq_getElem _ _ hi] at hx
    exact hM _ (List.getElem_mem hi) x hx
  · rw [List.getD_eq_default _ _ (by omega)] at hx
    simp at hx

/-- C9: for the all-zero WeightBatch (every weight matrix and bias zero) and
any nonlinearity with f(0) = 0, the forward pass returns the all-zero
Predictions array of shape (S, N, O), for every InputBatch of shape (N, D). -/
theorem predictions_zero_weights (ls : List Nat) (f : ℚ → ℚ) (inputs : Mat)
    (S N : Nat) (hls : 2 ≤ ls.length) (hf : f 0 = 0)
    (hin : HasShapeM inputs N (ls.headD 0)) :
    predictions ls f (List.replicate S (List.replicate (num_weights ls) 0)) inputs =
      List.replicate S (List.replicate N (List.replicate (ls.getLastD 0) (0 : ℚ))) := by
  have hw : HasShapeM (List.replicate S (List.replicate (num_weights ls) 0)) S
      (num_weights ls) := by
    refine ⟨by simp, ?_⟩
    intro r hr
    rw [List.eq_of_mem_replicate hr]
    simp
  have hwzero : ∀ r ∈ List.replicate S (List.replicate (num_weights ls) (0 : ℚ)),
      ∀ x ∈ r, x = 0 := by
    intro r hr x hx
    rw [List.eq_of_mem_replicate hr] at hx
    exact List.eq_of_mem_replicate hx
  have hpred := predictions_shape f hls hw hin
  apply List.ext_getElem
  · rw [hpred.1]
    simp
  · intro s h1 h2
    have hsS : s < S := by rw [hpred.1] at h1; exact h1
    rw [List.getElem_replicate, ← List.getD_eq_getElem _ ([] : Mat) h1,
      predictions_sample ls f _ inputs S hls hw.1 s hsS]
    have hsl_ne : sampleLayers (zippedLayers ls (List.replicate S
        (List.replicate (num_weights ls) 0))) s ≠ [] := by
      apply List.ne_nil_of_length_pos
      have := zippedLayers_ne_nil hls (List.replicate S (List.replicate (num_weights ls) 0))
      simp only [sampleLayers, List.length_map]
      exact List.length_pos.2 this
    have hsl_zero : ∀ q ∈ sampleLayers (zippedLayers ls (List.replicate S
        (List.replicate (num_weights ls) 0))) s,
        (∀ r ∈ q.1.1, ∀ x ∈ r, x = 0) ∧ (∀ x ∈ q.1.2, x = 0) := by
      intro q hq
      simp only [sampleLayers, List.mem_map] at hq
      obtain ⟨q0, hq0, rfl⟩ := hq
      have hq0u := (List.of_mem_zip hq0).1
      have hz := unpack_layers_zero (shapes ls) _ hwzero q0.1 hq0u
      exact ⟨getD_rows_zero hz.1 s, getD_row_zero (getD_rows_zero hz.2 s) 0⟩
    obtain ⟨K, hK⟩ := netFwd_zero f hf _ hsl_ne hsl_zero
    have hmap : inputs.map (fun r => netFwd f (sampleLayers (zippedLayers ls
        (List.replicate S (List.replicate (num_weights ls) 0))) s) r) =
        List.replicate N (List.replicate K 0) := by
      rw [List.map_congr_left (fun r _ => hK r), List.map_const', hin.1]
    rw [hmap]
    rcases Nat.eq_zero_or_pos N with hN | hN
    · rw [hN]
      rfl
    · have hKO : K = ls.getLastD 0 := by
        have hrow : List.replicate K (0 : ℚ) ∈
            (predictions ls f (List.replicate S (List.replicate (num_weights ls) 0))
              inputs).getD s [] := by
          rw [predictions_sample ls f _ inputs S hls hw.1 s hsS, hmap]
          exact List.mem_replicate.2 ⟨by omega, rfl⟩
        have := (shape3_getD hpred hsS).2 _ hrow
        simpa using this
      rw [hKO]

theorem predictions_zero_weights_witness :
    predictions [1, 2, 1] (fun x => x) (List.replicate 2 (List.replicate (num_weights [1, 2, 1]) 0))
        [[5], [9]] =
      List.replicate 2 (List.replicate 2 (List.replicate ([1, 2, 1].getLastD 0) (0 : ℚ))) :=
  predictions_zero_weights [1, 2, 1] (fun x => x) [[5], [9]] 2 2
    (by decide) (by decide) (by decide)

/-! ### Permutation invariance -/

theorem permuteList_shape {N c : Nat} (σ : Equiv.Perm (Fin N)) {M : Mat}
    (hM : HasShapeM M N c) : HasShapeM (permuteList σ M []) N c := by
  refine ⟨by simp [permuteList], ?_⟩
  intro row hrow
  simp only [permuteList, List.mem_ofFn] at hrow
  obtain ⟨i, rfl⟩ := hrow
  have hlt : ((σ i).val : Nat) < M.length := by
    rw [hM.1]
    exact (σ i).isLt
  show (M.getD (σ i).val []).length = c
  rw [List.getD_eq_getElem _ _ hlt]
  exact hM.2 _ (List.getElem_mem hlt)

theorem permuteList_getD {α : Type} {N : Nat} (σ : Equiv.Perm (Fin N)) (l : List α) (d : α)
    {n : Nat} (hn : n < N) :
    (permuteList σ l d).getD n d = l.getD (σ ⟨n, hn⟩).val d := by
  unfold permuteList
  rw [List.getD_eq_getElem _ _ (by simpa using hn), List.getElem_ofFn]

/-- C6: applying the same permutation of the N row indices to InputBatch and
TargetBatch leaves the logprob result unchanged. -/
theorem logprob_perm_invariant (ls : List Nat) (f : ℚ → ℚ) (lam sig2 : ℚ)
    (w inputs targets : Mat) (S N : Nat) (σ : Equiv.Perm (Fin N))
    (hls : 2 ≤ ls.length) (hpos : ∀ x ∈ ls, 0 < x)
    (hw : HasShapeM w S (num_weights ls))
    (hin : HasShapeM inputs N (ls.headD 0))
    (ht : HasShapeM targets N 1) :
    logprob ls f lam sig2 w (permuteList σ inputs []) (permuteList σ targets []) =
      logprob ls f lam sig2 w inputs targets := by
  have hO : 0 < ls.getLastD 0 := by
    refine hpos _ (getLastD_mem ls 0 ?_)
    intro h
    rw [h] at hls
    simp at hls
  have hinp : HasShapeM (permuteList σ inputs []) N (ls.headD 0) := permuteList_shape σ hin
  have htp : HasShapeM (permuteList σ targets []) N 1 := permuteList_shape σ ht
  rw [logprob_eq_formula ls f lam sig2 w _ _ S N hls hO hw hinp htp,
    logprob_eq_formula ls f lam sig2 w inputs targets S N hls hO hw hin ht]
  apply List.map_congr_left
  intro s hsr
  have hsS : s < S := List.mem_range.1 hsr
  have hent3 : ∀ (inp : Mat), inp.length = N → ∀ n, (hn : n < N) →
      ent3 (predictions ls f w inp) s n 0 =
        (netFwd f (sampleLayers (zippedLayers ls w) s) (inp.getD n [])).getD 0 0 := by
    intro inp hlen n hn
    unfold ent3
    rw [predictions_sample ls f w inp S hls hw.1 s hsS,
      getD_map_lt _ _ [] [] (by rw [hlen]; exact hn)]
  have hsum : (∑ k ∈ Finset.range N,
        (ent3 (predictions ls f w (permuteList σ inputs [])) s k 0 -
          ent2 (permuteList σ targets []) k 0) ^ 2) =
      ∑ k ∈ Finset.range N,
        (ent3 (predictions ls f w inputs) s k 0 - ent2 targets k 0) ^ 2 := by
    rw [← Fin.sum_univ_eq_sum_range (fun k =>
        (ent3 (predictions ls f w (permuteList σ inputs [])) s k 0 -
          ent2 (permuteList σ targets []) k 0) ^ 2) N,
      ← Fin.sum_univ_eq_sum_range (fun k =>
        (ent3 (predictions ls f w inputs) s k 0 - ent2 targets k 0) ^ 2) N,
      ← Equiv.sum_comp σ (fun i : Fin N =>
        (ent3 (predictions ls f w inputs) s i.val 0 - ent2 targets i.val 0) ^ 2)]
    apply Finset.sum_congr rfl
    intro i _
    have hi : (i : Nat) < N := i.isLt
    have hσi : ((σ i).val : Nat) < N := (σ i).isLt
    have h1 : ent3 (predictions ls f w (permuteList σ inputs [])) s i.val 0 =
        ent3 (predictions ls f w inputs) s (σ i).val 0 := by
      rw [hent3 _ (by simp [permuteList]) i.val hi, hent3 inputs hin.1 (σ i).val hσi,
        permuteList_getD σ inputs [] hi]
    have h2 : ent2 (permuteList σ targets []) i.val 0 = ent2 targets (σ i).val 0 := by
      unfold ent2
      rw [permuteList_getD σ targets [] hi]
    rw [h1, h2]
  rw [hsum]

theorem logprob_perm_invariant_witness :
    logprob [1, 1] (fun x => x) 1 2 [[1, 2]]
        (permuteList (Equiv.swap (0 : Fin 2) 1) [[3], [5]] [])
        (permuteList (Equiv.swap (0 : Fin 2) 1) [[4], [6]] []) =
      logprob [1, 1] (fun x => x) 1 2 [[1, 2]] [[3], [5]] [[4], [6]] :=
  logprob_perm_invariant [1, 1] (fun x => x) 1 2 [[1, 2]] [[3], [5]] [[4], [6]]
    1 2 (Equiv.swap (0 : Fin 2) 1) (by decide) (by decide) (by decide) (by decide) (by decide)

/-- C10: when the last layer width O exceeds 1 while TargetBatch has shape
(N, 1), the likelihood term keeps only output column 0: after broadcasting the
targets across the O columns and summing squared errors over the data axis,
only column 0 of the (S, O) sum enters logprob, so the squared errors of
columns 1..O-1 are discarded. -/
theorem logprob_first_column_only (ls : List Nat) (f : ℚ → ℚ) (lam sig2 : ℚ)
    (w inputs targets : Mat) (S N : Nat)
    (hls : 2 ≤ ls.length) (hwide : 2 ≤ ls.getLastD 0)
    (hw : HasShapeM w S (num_weights ls))
    (hin : HasShapeM inputs N (ls.headD 0))
    (ht : HasShapeM targets N 1) :
    logprob ls f lam sig2 w inputs targets =
      (List.range S).map (fun s =>
        -(lam * ∑ j ∈ Finset.range (num_weights ls), ent2 w s j ^ 2) +
        -((∑ k ∈ Finset.range N,
            (ent3 (predictions ls f w inputs) s k 0 - ent2 targets k 0) ^ 2) / sig2)) :=
  logprob_eq_formula ls f lam sig2 w inputs targets S N hls (by omega) hw hin ht

theorem logprob_first_column_only_witness :
    logprob [1, 2] (fun x => x) 0 1 [[1, 2, 3, 4]] [[5]] [[7]] =
      (List.range 1).map (fun s =>
        -(0 * ∑ j ∈ Finset.range (num_weights [1, 2]), ent2 [[1, 2, 3, 4]] s j ^ 2) +
        -((∑ k ∈ Finset.range 1,
            (ent3 (predictions [1, 2] (fun x => x) [[1, 2, 3, 4]] [[5]]) s k 0 -
              ent2 [[7]] k 0) ^ 2) / 1)) :=
  logprob_first_column_only [1, 2] (fun x => x) 0 1 [[1, 2, 3, 4]] [[5]] [[7]] 1 1
    (by decide) (by decide) (by decide) (by decide) (by decide)

end BNN
